import Mathlib

/-!
Verification of the `declare-objects` tool: a shallow embedding of its
pure core (naming-style classification, name transcoding, reconciliation,
patch planning, candidate extraction, and the top-level control flow of the
script) together with theorems settling the specification claims.

Sources embedded:
  * `getNamingStyleFromNamedItems` / the category loop of
    `getNamingStyleFromOtherBindings` (style classifier),
  * `styleNames` (name transcoder),
  * the `existingDurableObjects` filter and `patchConfig` payload
    (reconciliation and patch planner),
  * the `defaultType` union / string-literal extraction (structural
    resolver's final step),
  * the top-level script control flow including `assertNotCancelled`
    (exit 1 on prompt cancellation), `process.exit(0)` on decline, and the
    single `patchConfig` call.

Interactive prompts are modelled as explicit inputs (`PromptResult`);
`process.exit`, thrown errors and the `patchConfig` invocation are modelled
as the constructors of `RunOutcome`.
-/

namespace DeclareObjects

/-! ### Character classes

Models of the ASCII character classes appearing in the classifier's regular
expressions (`[a-z]`, `[A-Z]`, `[0-9]`, `[a-zA-Z0-9]`, `[A-Z0-9]`,
`[a-z0-9]`), given as explicit literal lists. -/

def upperChars : List Char :=
  ['A','B','C','D','E','F','G','H','I','J','K','L','M',
   'N','O','P','Q','R','S','T','U','V','W','X','Y','Z']

def lowerChars : List Char :=
  ['a','b','c','d','e','f','g','h','i','j','k','l','m',
   'n','o','p','q','r','s','t','u','v','w','x','y','z']

def digitChars : List Char :=
  ['0','1','2','3','4','5','6','7','8','9']

def isUpperAlpha (c : Char) : Bool := upperChars.contains c

def isLowerAlpha (c : Char) : Bool := lowerChars.contains c

def isDigitChar (c : Char) : Bool := digitChars.contains c

def isAlnumChar (c : Char) : Bool := isLowerAlpha c || isUpperAlpha c || isDigitChar c

def isUpperDigit (c : Char) : Bool := isUpperAlpha c || isDigitChar c

def isLowerDigit (c : Char) : Bool := isLowerAlpha c || isDigitChar c

/-- Letters, digits and underscore: the only characters a transcoded name may
contain according to the spec's §8 totality property. -/
def isWordChar (c : Char) : Bool := isAlnumChar c || c == '_'

/-! ### Recognition patterns (§4.4)

Each `match*` function is the model of one of the four anchored regular
expressions tested by `getNamingStyleFromNamedItems`:

  * camelCase        : `^[a-z][a-zA-Z0-9]*$`
  * PascalCase       : `^[A-Z][a-zA-Z0-9]*$`
  * UPPER_SNAKE_CASE : `^[A-Z][A-Z0-9]*(_[A-Z0-9]+)*$`
  * lower_snake_case : `^[a-z][a-z0-9]*(_[a-z0-9]+)*$`

`snakeTail cls` recognises the language of `[cls]*(_[cls]+)*`: a string over
class characters and underscores in which no underscore is final and every
underscore is immediately followed by a class character (equivalently, single
underscores separate nonempty class-character segments). -/

def snakeTail (cls : Char → Bool) : List Char → Bool
  | [] => true
  | c :: rest =>
    if c = '_' then
      match rest with
      | [] => false
      | d :: rest2 => cls d && snakeTail cls rest2
    else
      cls c && snakeTail cls rest

def matchCamel : List Char → Bool
  | [] => false
  | c :: cs => isLowerAlpha c && cs.all isAlnumChar

def matchPascal : List Char → Bool
  | [] => false
  | c :: cs => isUpperAlpha c && cs.all isAlnumChar

def matchUpperSnake : List Char → Bool
  | [] => false
  | c :: cs => isUpperAlpha c && snakeTail isUpperDigit cs

def matchLowerSnake : List Char → Bool
  | [] => false
  | c :: cs => isLowerAlpha c && snakeTail isLowerDigit cs

/-! ### Naming styles and the style classifier -/

inductive NamingStyle where
  | camel
  | pascal
  | upper_snake
  | lower_snake
deriving DecidableEq, Repr, Fintype

/-- Dispatch a name to the recognition pattern of a given style (§4.4). -/
def matchesStyle (st : NamingStyle) (s : List Char) : Bool :=
  match st with
  | .camel => matchCamel s
  | .pascal => matchPascal s
  | .upper_snake => matchUpperSnake s
  | .lower_snake => matchLowerSnake s

/-- The fixed order in which the classifier tests the four patterns. -/
def styleIndex : NamingStyle → Nat
  | .camel => 0
  | .pascal => 1
  | .upper_snake => 2
  | .lower_snake => 3

/-- An element of a named-binding collection; only its `binding` name is
inspected by the classifier. -/
structure NamedItem where
  binding : String
deriving DecidableEq, Repr

/-- Model of `getNamingStyleFromNamedItems`: if the collection is empty the
result is `undefined`; otherwise the four patterns are tested in the fixed
order camel, pascal, upper_snake, lower_snake and the first one matched by
every binding name wins; if none does, the result is `undefined`. -/
def getNamingStyleFromNamedItems (items : List NamedItem) : Option NamingStyle :=
  if items.isEmpty then none
  else if items.all (fun item => matchCamel item.binding.data) then some .camel
  else if items.all (fun item => matchPascal item.binding.data) then some .pascal
  else if items.all (fun item => matchUpperSnake item.binding.data) then some .upper_snake
  else if items.all (fun item => matchLowerSnake item.binding.data) then some .lower_snake
  else none

/-- All binding names of a collection match the given style's pattern. -/
def unanimousStyle (st : NamingStyle) (items : List NamedItem) : Bool :=
  items.all (fun item => matchesStyle st item.binding.data)

/-- An already-registered durable-object binding; only its `name` is read. -/
structure RegisteredBinding where
  name : String
deriving DecidableEq, Repr

/-- The slice of the wrangler configuration that the script reads: the four
optional binding-category collections (in the priority order they are
checked), the already-registered durable-object binding names, and the
config path handed to `patchConfig`. -/
structure Config where
  kv_namespaces : Option (List NamedItem)
  services : Option (List NamedItem)
  d1_databases : Option (List NamedItem)
  vectorize : Option (List NamedItem)
  durable_objects_bindings : List RegisteredBinding
  configPath : Option String

/-- The category list `["kv_namespaces", "services", "d1_databases",
"vectorize"]` that `getNamingStyleFromOtherBindings` walks, in order; a
`none` entry models a key absent from the configuration. -/
def categories (config : Config) : List (Option (List NamedItem)) :=
  [config.kv_namespaces, config.services, config.d1_databases, config.vectorize]

/-- Model of the detection loop in `getNamingStyleFromOtherBindings`: walk
the categories in order, skip absent ones (`continue` on a falsy value), and
return the first style detected by `getNamingStyleFromNamedItems`; `none`
means the loop fell through to the interactive `select` prompt. -/
def findStyle : List (Option (List NamedItem)) → Option NamingStyle
  | [] => none
  | none :: rest => findStyle rest
  | some items :: rest =>
    match getNamingStyleFromNamedItems items with
    | some st => some st
    | none => findStyle rest

/-! ### Name transcoder (`styleNames`)

The source splits a PascalCase name by `replace(/([A-Z])/g, " $1")`, `trim()`
and `split(" ")`, then re-joins the parts according to the target style.
Each JavaScript string operation is modelled on `List Char`; case mapping is
the ASCII fragment of `toLowerCase` / `toUpperCase` (the only characters the
tool ever feeds it are ASCII identifier characters). -/

/-- ASCII fragment of JavaScript `toLowerCase`. -/
def toLowerChar : Char → Char
  | 'A' => 'a' | 'B' => 'b' | 'C' => 'c' | 'D' => 'd' | 'E' => 'e'
  | 'F' => 'f' | 'G' => 'g' | 'H' => 'h' | 'I' => 'i' | 'J' => 'j'
  | 'K' => 'k' | 'L' => 'l' | 'M' => 'm' | 'N' => 'n' | 'O' => 'o'
  | 'P' => 'p' | 'Q' => 'q' | 'R' => 'r' | 'S' => 's' | 'T' => 't'
  | 'U' => 'u' | 'V' => 'v' | 'W' => 'w' | 'X' => 'x' | 'Y' => 'y'
  | 'Z' => 'z'
  | c => c

/-- ASCII fragment of JavaScript `toUpperCase`. -/
def toUpperChar : Char → Char
  | 'a' => 'A' | 'b' => 'B' | 'c' => 'C' | 'd' => 'D' | 'e' => 'E'
  | 'f' => 'F' | 'g' => 'G' | 'h' => 'H' | 'i' => 'I' | 'j' => 'J'
  | 'k' => 'K' | 'l' => 'L' | 'm' => 'M' | 'n' => 'N' | 'o' => 'O'
  | 'p' => 'P' | 'q' => 'Q' | 'r' => 'R' | 's' => 'S' | 't' => 'T'
  | 'u' => 'U' | 'v' => 'V' | 'w' => 'W' | 'x' => 'X' | 'y' => 'Y'
  | 'z' => 'Z'
  | c => c

/-- `replace(/([A-Z])/g, " $1")`: insert a space before every uppercase
ASCII letter. -/
def jsReplaceUpper (s : List Char) : List Char :=
  s.flatMap (fun c => if isUpperAlpha c then [' ', c] else [c])

/-- `trim()`: drop leading and trailing whitespace. -/
def jsTrim (s : List Char) : List Char :=
  ((s.dropWhile Char.isWhitespace).reverse.dropWhile Char.isWhitespace).reverse

/-- `split(" ")`: split at every single space character; adjacent separators
produce empty segments, and the empty string splits to one empty segment,
exactly as in JavaScript. -/
def splitOnSpace : List Char → List (List Char)
  | [] => [[]]
  | c :: rest =>
    if c = ' ' then
      [] :: splitOnSpace rest
    else
      match splitOnSpace rest with
      | [] => [[c]]
      | seg :: segs => (c :: seg) :: segs

/-- `join("_")`. -/
def joinWithUnderscore : List (List Char) → List Char
  | [] => []
  | [p] => p
  | p :: ps => p ++ '_' :: joinWithUnderscore ps

/-- The `parts` computed by `styleNames`:
`name.replace(/([A-Z])/g, " $1").trim().split(" ")`. -/
def toParts (s : String) : List (List Char) :=
  splitOnSpace (jsTrim (jsReplaceUpper s.data))

/-- Model of `styleNames`: render a PascalCase-shaped name in the target
style. `pascal` returns the input unchanged; `camel` lowercases the first
part and concatenates the rest unchanged; the snake styles case-map every
part and join with underscores. -/
def styleNames (nameAsPascalCase : String) (style : NamingStyle) : String :=
  match style with
  | .pascal => nameAsPascalCase
  | .camel =>
    let parts := toParts nameAsPascalCase
    String.mk (((parts.headD []).map toLowerChar) ++ (parts.drop 1).flatten)
  | .upper_snake =>
    String.mk (joinWithUnderscore ((toParts nameAsPascalCase).map (List.map toUpperChar)))
  | .lower_snake =>
    String.mk (joinWithUnderscore ((toParts nameAsPascalCase).map (List.map toLowerChar)))

/-! ### Reconciliation -/

/-- The net-new filter of the script:
`itemsExtendingDurableObject.filter((name) => !existingDurableObjects.includes(name))`. -/
def netNewOf (discovered existing : List String) : List String :=
  discovered.filter (fun n => !(existing.contains n))

/-- List intersection by membership, used to state the spec's
`discovered ∩ (discovered − existing)` property. -/
def listInter (a b : List String) : List String :=
  a.filter (fun x => b.contains x)

/-! ### Patch planner -/

/-- A `{name, class_name}` pair merged into `durable_objects.bindings`. -/
structure NewBinding where
  name : String
  class_name : String
deriving DecidableEq, Repr

/-- A migration record appended to the migration history. -/
structure Migration where
  tag : String
  new_sqlite_classes : List String
deriving DecidableEq, Repr

/-- The `patchConfig` payload. -/
structure ConfigPatch where
  bindings : List NewBinding
  migrations : List Migration
deriving DecidableEq, Repr

/-- Model of the object literal passed to `patchConfig`: one binding per
item with `name := styleNames it style` and `class_name := it`, and exactly
one migration whose tag is `timestamp ++ "-" ++ items.join("-")` and whose
`new_sqlite_classes` is the item list itself. -/
def buildPatch (items : List String) (style : NamingStyle) (timestamp : String) : ConfigPatch :=
  { bindings := items.map (fun it => { name := styleNames it style, class_name := it }),
    migrations :=
      [{ tag := timestamp ++ "-" ++ String.intercalate "-" items,
         new_sqlite_classes := items }] }

/-! ### Structural resolver: default-export type extraction -/

/-- A non-union member type as seen by the checker: a string-literal type
(printed with surrounding double quotes by `typeToString`) or anything
else, carried with its printed form. -/
inductive TsAtom where
  | stringLiteral (value : String)
  | other (display : String)
deriving DecidableEq, Repr

/-- The computed type of the synthetic unit's default export: a union of
member types, or a single non-union type. -/
inductive TsType where
  | atom (a : TsAtom)
  | union (members : List TsAtom)
deriving DecidableEq, Repr

/-- `checker.typeToString` on a member type: a string-literal type is
rendered with surrounding double quotes. -/
def typeToStringAtom : TsAtom → String
  | .stringLiteral v => String.mk ('"' :: v.data ++ ['"'])
  | .other d => d

/-- `replaceAll('"', "")`: remove every double-quote character. -/
def stripQuotes (s : String) : String :=
  String.mk (s.data.filter (fun c => c ≠ '"'))

/-- Model of the `defaultType` analysis: a union maps each member through
`typeToString` with quotes stripped; a single string-literal type yields the
one stripped value; anything else leaves `itemsExtendingDurableObject`
`undefined`. -/
def extractCandidates : TsType → Option (List String)
  | .union members => some (members.map (fun it => stripQuotes (typeToStringAtom it)))
  | .atom (.stringLiteral v) => some [stripQuotes (typeToStringAtom (.stringLiteral v))]
  | .atom (.other _) => none

/-! ### Top-level script control flow -/

/-- The result of a `@clack/prompts` interaction: an answer, or the
cancellation symbol that `assertNotCancelled` turns into `process.exit(1)`. -/
inductive PromptResult (α : Type) where
  | value (a : α)
  | cancel
deriving DecidableEq, Repr

/-- The observable outcome of one run of the script: an uncaught thrown
error (nonzero process exit), an explicit `process.exit(code)`, or a single
`patchConfig(path, patch)` invocation followed by normal completion. -/
inductive RunOutcome where
  | fatalError (msg : String)
  | exited (code : Nat)
  | patched (configPath : String) (patch : ConfigPatch)
deriving DecidableEq, Repr

/-- Model of the top-level script (after the compiler session has produced
the default export's type `defaultType`): filter the extracted candidates
against the existing durable-object binding names, throw if extraction
produced nothing, resolve the naming style (detected from the binding
categories, else the interactive selection), ask for confirmation, and on a
positive answer call `patchConfig` once with the built payload. The two
prompt answers are explicit inputs; `styleChoice` is consulted only when
detection fell through to the `select` prompt. -/
def runScript (config : Config) (defaultType : TsType)
    (styleChoice : PromptResult NamingStyle) (confirmChoice : PromptResult Bool)
    (timestamp : String) : RunOutcome :=
  let existingDurableObjects := config.durable_objects_bindings.map (fun b => b.name)
  match (extractCandidates defaultType).map
      (fun l => l.filter (fun n => !(existingDurableObjects.contains n))) with
  | none => .fatalError "No Durable Objects found in your Worker"
  | some itemsExtendingDurableObject =>
    let styleResult : PromptResult NamingStyle :=
      match findStyle (categories config) with
      | some st => .value st
      | none => styleChoice
    match styleResult with
    | .cancel => .exited 1
    | .value namingStyle =>
      match confirmChoice with
      | .cancel => .exited 1
      | .value false => .exited 0
      | .value true =>
        match config.configPath with
        | none => .fatalError "No config path found"
        | some p => .patched p (buildPatch itemsExtendingDurableObject namingStyle timestamp)

/-! ### Auxiliary definitions used by the statements and proofs -/

/-- A word of a split PascalCase identifier: one uppercase letter followed by
lowercase letters and digits. -/
def goodPart : List Char → Bool
  | [] => false
  | c :: cs => isUpperAlpha c && cs.all isLowerDigit

/-- The common shape of the two snake-case recognition patterns:
`^[headCls][cls]*(_[cls]+)*$`. -/
def matchSnakeWith (headCls cls : Char → Bool) : List Char → Bool
  | [] => false
  | c :: cs => headCls c && snakeTail cls cs

/-- A concrete configuration used by witnesses and counterexamples:
key-value bindings in UPPER_SNAKE_CASE, one registered durable object
named `Counter`, and a config path. -/
def sampleConfig : Config :=
  { kv_namespaces := some [⟨"KV_ONE"⟩, ⟨"KV_TWO"⟩]
    services := none
    d1_databases := none
    vectorize := none
    durable_objects_bindings := [⟨"Counter"⟩]
    configPath := some "wrangler.jsonc" }

/-! ## Theorems -/

/-! ### Generic helper lemmas -/

theorem mem_of_class {c : Char} {l : List Char} (h : l.contains c = true) : c ∈ l :=
  List.elem_iff.mp h

theorem contains_eq_decide_mem (a : String) (l : List String) :
    l.contains a = decide (a ∈ l) := by
  by_cases h : a ∈ l
  · simp [h, List.elem_iff.mpr h]
  · have hc : l.contains a = false :=
      Bool.eq_false_iff.mpr (fun hcc => h (List.elem_iff.mp hcc))
    simp [h, hc]

theorem toLowerChar_lower {c : Char} (h : isUpperAlpha c = true) :
    isLowerAlpha (toLowerChar c) = true := by
  have h' : c ∈ upperChars := mem_of_class h
  fin_cases h' <;> decide

theorem toLowerChar_lowerDigit {c : Char} (h : isLowerDigit c = true) :
    isLowerDigit (toLowerChar c) = true := by
  simp only [isLowerDigit, Bool.or_eq_true] at h
  rcases h with h | h
  · have h' : c ∈ lowerChars := mem_of_class h
    fin_cases h' <;> decide
  · have h' : c ∈ digitChars := mem_of_class h
    fin_cases h' <;> decide

theorem toUpperChar_upper {c : Char} (h : isUpperAlpha c = true) :
    isUpperAlpha (toUpperChar c) = true := by
  have h' : c ∈ upperChars := mem_of_class h
  fin_cases h' <;> decide

theorem toUpperChar_upperDigit {c : Char} (h : isLowerDigit c = true) :
    isUpperDigit (toUpperChar c) = true := by
  simp only [isLowerDigit, Bool.or_eq_true] at h
  rcases h with h | h
  · have h' : c ∈ lowerChars := mem_of_class h
    fin_cases h' <;> decide
  · have h' : c ∈ digitChars := mem_of_class h
    fin_cases h' <;> decide

theorem not_ws_of_upper {c : Char} (h : isUpperAlpha c = true) :
    c.isWhitespace = false := by
  have h' : c ∈ upperChars := mem_of_class h
  fin_cases h' <;> decide

theorem not_ws_of_alnum {c : Char} (h : isAlnumChar c = true) :
    c.isWhitespace = false := by
  simp only [isAlnumChar, Bool.or_eq_true] at h
  rcases h with (h | h) | h
  · have h' : c ∈ lowerChars := mem_of_class h
    fin_cases h' <;> decide
  · have h' : c ∈ upperChars := mem_of_class h
    fin_cases h' <;> decide
  · have h' : c ∈ digitChars := mem_of_class h
    fin_cases h' <;> decide

theorem ne_space_of_upper {c : Char} (h : isUpperAlpha c = true) : c ≠ ' ' := by
  have h' : c ∈ upperChars := mem_of_class h
  fin_cases h' <;> decide

theorem ne_space_of_lowerDigit {c : Char} (h : isLowerDigit c = true) : c ≠ ' ' := by
  simp only [isLowerDigit, Bool.or_eq_true] at h
  rcases h with h | h
  · have h' : c ∈ lowerChars := mem_of_class h
    fin_cases h' <;> decide
  · have h' : c ∈ digitChars := mem_of_class h
    fin_cases h' <;> decide

theorem alnum_of_upper {c : Char} (h : isUpperAlpha c = true) : isAlnumChar c = true := by
  simp [isAlnumChar, h]

theorem alnum_of_lowerDigit {c : Char} (h : isLowerDigit c = true) : isAlnumChar c = true := by
  simp only [isLowerDigit, Bool.or_eq_true] at h
  rcases h with h | h <;> simp [isAlnumChar, h]

theorem lowerDigit_of_alnum_not_upper {c : Char} (ha : isAlnumChar c = true)
    (hu : isUpperAlpha c = false) : isLowerDigit c = true := by
  simp only [isAlnumChar, Bool.or_eq_true] at ha
  rcases ha with (h | h) | h
  · simp [isLowerDigit, h]
  · rw [h] at hu; cases hu
  · simp [isLowerDigit, h]

theorem word_of_alnum {c : Char} (h : isAlnumChar c = true) : isWordChar c = true := by
  simp [isWordChar, h]

/-! ### Classifier helper lemmas -/

theorem unanimous_camel (items : List NamedItem) :
    unanimousStyle .camel items = items.all (fun item => matchCamel item.binding.data) := rfl

theorem unanimous_pascal (items : List NamedItem) :
    unanimousStyle .pascal items = items.all (fun item => matchPascal item.binding.data) := rfl

theorem unanimous_upper (items : List NamedItem) :
    unanimousStyle .upper_snake items
      = items.all (fun item => matchUpperSnake item.binding.data) := rfl

theorem unanimous_lower (items : List NamedItem) :
    unanimousStyle .lower_snake items
      = items.all (fun item => matchLowerSnake item.binding.data) := rfl

theorem isEmpty_false_of_ne_nil {items : List NamedItem} (h : items ≠ []) :
    items.isEmpty = false := by
  cases items with
  | nil => cases h rfl
  | cons _ _ => rfl

/-- C2: the classifier returns the first category whose binding names all
match exactly one of the four recognized patterns; an empty category is
skipped; with no unanimous category (or no bindings at all) it is
undetermined. Conjuncts: (1) a nonempty collection unanimously matching
exactly one style classifies as that style; (2) an empty collection is
skipped (classifies as `none`); (3) a collection unanimous in no style is
undetermined; (4) the category walk returns the first present category that
classifies, in the fixed priority order. -/
theorem C2_style_classifier :
    (∀ (items : List NamedItem) (st : NamingStyle), items ≠ [] →
      unanimousStyle st items = true →
      (∀ st2, st2 ≠ st → unanimousStyle st2 items = false) →
      getNamingStyleFromNamedItems items = some st)
    ∧ getNamingStyleFromNamedItems [] = none
    ∧ (∀ items : List NamedItem, (∀ st, unanimousStyle st items = false) →
      getNamingStyleFromNamedItems items = none)
    ∧ ∀ cats : List (Option (List NamedItem)),
      findStyle cats = (cats.filterMap id).findSome? getNamingStyleFromNamedItems := by
  refine ⟨?_, rfl, ?_, ?_⟩
  · intro items st hne hu hothers
    have hnemp : items.isEmpty = false := isEmpty_false_of_ne_nil hne
    by_cases h1 : items.all (fun item => matchCamel item.binding.data) = true
    · have hst : st = .camel := by
        by_contra hc
        have hfalse := hothers .camel (fun heq => hc heq.symm)
        rw [unanimous_camel, h1] at hfalse
        cases hfalse
      subst hst
      simp [getNamingStyleFromNamedItems, hnemp, h1]
    · have h1' : items.all (fun item => matchCamel item.binding.data) = false :=
        Bool.eq_false_iff.mpr h1
      by_cases h2 : items.all (fun item => matchPascal item.binding.data) = true
      · have hst : st = .pascal := by
          by_contra hc
          have hfalse := hothers .pascal (fun heq => hc heq.symm)
          rw [unanimous_pascal, h2] at hfalse
          cases hfalse
        subst hst
        simp [getNamingStyleFromNamedItems, hnemp, h1', h2]
      · have h2' : items.all (fun item => matchPascal item.binding.data) = false :=
          Bool.eq_false_iff.mpr h2
        by_cases h3 : items.all (fun item => matchUpperSnake item.binding.data) = true
        · have hst : st = .upper_snake := by
            by_contra hc
            have hfalse := hothers .upper_snake (fun heq => hc heq.symm)
            rw [unanimous_upper, h3] at hfalse
            cases hfalse
          subst hst
          simp [getNamingStyleFromNamedItems, hnemp, h1', h2', h3]
        · have h3' : items.all (fun item => matchUpperSnake item.binding.data) = false :=
            Bool.eq_false_iff.mpr h3
          by_cases h4 : items.all (fun item => matchLowerSnake item.binding.data) = true
          · have hst : st = .lower_snake := by
              by_contra hc
              have hfalse := hothers .lower_snake (fun heq => hc heq.symm)
              rw [unanimous_lower, h4] at hfalse
              cases hfalse
            subst hst
            simp [getNamingStyleFromNamedItems, hnemp, h1', h2', h3', h4]
          · exfalso
            cases st with
            | camel => rw [unanimous_camel] at hu; exact h1 hu
            | pascal => rw [unanimous_pascal] at hu; exact h2 hu
            | upper_snake => rw [unanimous_upper] at hu; exact h3 hu
            | lower_snake => rw [unanimous_lower] at hu; exact h4 hu
  · intro items hall
    by_cases hemp : items.isEmpty = true
    · simp [getNamingStyleFromNamedItems, hemp]
    · have hemp' : items.isEmpty = false := Bool.eq_false_iff.mpr hemp
      have h1 := hall .camel
      have h2 := hall .pascal
      have h3 := hall .upper_snake
      have h4 := hall .lower_snake
      rw [unanimous_camel] at h1
      rw [unanimous_pascal] at h2
      rw [unanimous_upper] at h3
      rw [unanimous_lower] at h4
      simp [getNamingStyleFromNamedItems, hemp', h1, h2, h3, h4]
  · intro cats
    induction cats with
    | nil => rfl
    | cons o rest ih =>
      cases o with
      | none => simpa [findStyle] using ih
      | some items =>
        cases h : getNamingStyleFromNamedItems items with
        | some st => simp [findStyle, h, List.findSome?_cons]
        | none => simp [findStyle, h, List.findSome?_cons, ih]

/-- C2 witness: a nonempty collection whose names match camelCase and no
other style, classified at a concrete input through the theorem. -/
theorem C2_witness :
    getNamingStyleFromNamedItems [⟨"fooBar"⟩] = some NamingStyle.camel :=
  C2_style_classifier.1 [⟨"fooBar"⟩] .camel (by decide) (by decide) (by decide)

/-- C6: reconciliation's set difference is order-independent and
idempotent: `discovered ∩ (discovered − existing) = discovered − existing`,
filtering twice equals filtering once, and the result does not depend on
the order of the existing registrations. -/
theorem C6_reconciliation (discovered existing : List String) :
    listInter discovered (netNewOf discovered existing) = netNewOf discovered existing
    ∧ netNewOf (netNewOf discovered existing) existing = netNewOf discovered existing
    ∧ ∀ existing2, existing.Perm existing2 →
        netNewOf discovered existing = netNewOf discovered existing2 := by
  refine ⟨?_, ?_, ?_⟩
  · apply List.filter_congr
    intro x hx
    rw [contains_eq_decide_mem]
    by_cases hp : (!(existing.contains x)) = true
    · simp [List.mem_filter, hx, hp, netNewOf]
    · have hp' : (!(existing.contains x)) = false := Bool.eq_false_iff.mpr hp
      simp only [netNewOf, List.mem_filter, hp', Bool.false_eq_true, and_false,
        decide_False, hp']
  · rw [netNewOf, netNewOf, List.filter_filter]
    apply List.filter_congr
    intro x _
    exact Bool.and_self _
  · intro existing2 hperm
    apply List.filter_congr
    intro x _
    by_cases hm : x ∈ existing
    · simp [contains_eq_decide_mem, hm, hperm.mem_iff.mp hm]
    · have hm2 : x ∉ existing2 := fun h2 => hm (hperm.mem_iff.mpr h2)
      simp [contains_eq_decide_mem, hm, hm2]

/-- C6 witness: the order-independence conjunct applied at concrete lists
related by a transposition. -/
theorem C6_witness :
    netNewOf ["A", "Counter"] ["Counter", "Chat"]
      = netNewOf ["A", "Counter"] ["Chat", "Counter"] :=
  (C6_reconciliation ["A", "Counter"] ["Counter", "Chat"]).2.2
    ["Chat", "Counter"] (List.Perm.swap "Chat" "Counter" [])

/-- C7: the scenario from the spec: existing key-value bindings
`["KV_ONE", "KV_TWO"]` make the classifier return upper_snake, and
transcoding `FooBarActor` under that style yields `FOO_BAR_ACTOR`. -/
theorem C7_kv_scenario_upper_snake :
    findStyle [some [⟨"KV_ONE"⟩, ⟨"KV_TWO"⟩], none, none, none]
        = some NamingStyle.upper_snake
    ∧ getNamingStyleFromNamedItems [⟨"KV_ONE"⟩, ⟨"KV_TWO"⟩]
        = some NamingStyle.upper_snake
    ∧ styleNames "FooBarActor" NamingStyle.upper_snake = "FOO_BAR_ACTOR" := by
  decide

/-- C9: overlapping patterns are resolved by the fixed test order camel,
pascal, upper_snake, lower_snake: `["FOO"]` classifies as pascal (not
upper_snake), `["foo"]` as camel (not lower_snake), and in general the
classifier returns a unanimous style of minimal index in the test order. -/
theorem C9_pattern_priority :
    getNamingStyleFromNamedItems [⟨"FOO"⟩] = some NamingStyle.pascal
    ∧ getNamingStyleFromNamedItems [⟨"foo"⟩] = some NamingStyle.camel
    ∧ ∀ (items : List NamedItem) (st : NamingStyle), items ≠ [] →
        unanimousStyle st items = true →
        ∃ st2, getNamingStyleFromNamedItems items = some st2
          ∧ unanimousStyle st2 items = true ∧ styleIndex st2 ≤ styleIndex st := by
  refine ⟨by decide, by decide, ?_⟩
  intro items st hne hu
  have hnemp : items.isEmpty = false := isEmpty_false_of_ne_nil hne
  by_cases h1 : items.all (fun item => matchCamel item.binding.data) = true
  · exact ⟨.camel, by simp [getNamingStyleFromNamedItems, hnemp, h1],
      by rw [unanimous_camel]; exact h1, Nat.zero_le _⟩
  · have h1' : items.all (fun item => matchCamel item.binding.data) = false :=
      Bool.eq_false_iff.mpr h1
    by_cases h2 : items.all (fun item => matchPascal item.binding.data) = true
    · refine ⟨.pascal, by simp [getNamingStyleFromNamedItems, hnemp, h1', h2],
        by rw [unanimous_pascal]; exact h2, ?_⟩
      cases st with
      | camel => rw [unanimous_camel] at hu; exact absurd hu h1
      | pascal => exact Nat.le_refl _
      | upper_snake => decide
      | lower_snake => decide
    · have h2' : items.all (fun item => matchPascal item.binding.data) = false :=
        Bool.eq_false_iff.mpr h2
      by_cases h3 : items.all (fun item => matchUpperSnake item.binding.data) = true
      · refine ⟨.upper_snake, by simp [getNamingStyleFromNamedItems, hnemp, h1', h2', h3],
          by rw [unanimous_upper]; exact h3, ?_⟩
        cases st with
        | camel => rw [unanimous_camel] at hu; exact absurd hu h1
        | pascal => rw [unanimous_pascal] at hu; exact absurd hu h2
        | upper_snake => exact Nat.le_refl _
        | lower_snake => decide
      · have h3' : items.all (fun item => matchUpperSnake item.binding.data) = false :=
          Bool.eq_false_iff.mpr h3
        by_cases h4 : items.all (fun item => matchLowerSnake item.binding.data) = true
        · refine ⟨.lower_snake,
            by simp [getNamingStyleFromNamedItems, hnemp, h1', h2', h3', h4],
            by rw [unanimous_lower]; exact h4, ?_⟩
          cases st with
          | camel => rw [unanimous_camel] at hu; exact absurd hu h1
          | pascal => rw [unanimous_pascal] at hu; exact absurd hu h2
          | upper_snake => rw [unanimous_upper] at hu; exact absurd hu h3
          | lower_snake => exact Nat.le_refl _
        · exfalso
          cases st with
          | camel => rw [unanimous_camel] at hu; exact h1 hu
          | pascal => rw [unanimous_pascal] at hu; exact h2 hu
          | upper_snake => rw [unanimous_upper] at hu; exact h3 hu
          | lower_snake => rw [unanimous_lower] at hu; exact h4 hu

/-- C9 witness: `["FOO"]` is unanimously UPPER_SNAKE_CASE, yet the
classifier returns the earlier pattern in the test order (pascal). -/
theorem C9_witness :
    ∃ st2, getNamingStyleFromNamedItems [⟨"FOO"⟩] = some st2
      ∧ unanimousStyle st2 [⟨"FOO"⟩] = true
      ∧ styleIndex st2 ≤ styleIndex NamingStyle.upper_snake :=
  C9_pattern_priority.2.2 [⟨"FOO"⟩] .upper_snake (by decide) (by decide)

/-- C4: for every nonempty (duplicate-free) net-new set, the planned delta
has exactly one binding per net-new name — named by the style transcoding of
the class identifier, with the identifier itself as `class_name` — plus
exactly one migration record whose `new_sqlite_classes` are all net-new
identifiers and whose tag concatenates the timestamp with the identifier
list. -/
theorem C4_patch_planner (items : List String) (style : NamingStyle) (ts : String)
    (hne : items ≠ []) (hnd : items.Nodup) :
    (buildPatch items style ts).bindings.length = items.length
    ∧ (∀ n ∈ items,
        ((buildPatch items style ts).bindings.filter (fun b => b.class_name == n)).length = 1)
    ∧ (∀ b ∈ (buildPatch items style ts).bindings,
        b.class_name ∈ items ∧ b.name = styleNames b.class_name style)
    ∧ (buildPatch items style ts).migrations.length = 1
    ∧ ∀ m ∈ (buildPatch items style ts).migrations,
        m.new_sqlite_classes = items ∧ m.tag = ts ++ "-" ++ String.intercalate "-" items := by
  have _ := hne
  refine ⟨by simp [buildPatch], ?_, ?_, by simp [buildPatch], by simp [buildPatch]⟩
  · intro n hn
    have hmap : (buildPatch items style ts).bindings
        = items.map (fun it =>
            ({ name := styleNames it style, class_name := it } : NewBinding)) := rfl
    rw [hmap, List.filter_map, List.length_map]
    have hcomp : ((fun (b : NewBinding) => b.class_name == n) ∘
        (fun it => ({ name := styleNames it style, class_name := it } : NewBinding)))
        = fun it => it == n := rfl
    rw [hcomp, ← List.countP_eq_length_filter]
    exact List.count_eq_one_of_mem hnd hn
  · intro b hb
    have hmap : (buildPatch items style ts).bindings
        = items.map (fun it =>
            ({ name := styleNames it style, class_name := it } : NewBinding)) := rfl
    rw [hmap] at hb
    obtain ⟨it, hit, rfl⟩ := List.mem_map.mp hb
    exact ⟨hit, rfl⟩

/-- C4 witness: the spec's scenario — discovered `{Counter, ChatRoom}`,
existing `{Counter}` — yields net-new `[ChatRoom]`, and the theorem applied
there gives one binding and one migration record. -/
theorem C4_witness :
    netNewOf ["Counter", "ChatRoom"] ["Counter"] = ["ChatRoom"]
    ∧ (buildPatch ["ChatRoom"] NamingStyle.pascal "TS").migrations.length = 1
    ∧ (buildPatch ["ChatRoom"] NamingStyle.pascal "TS").bindings.length
        = (["ChatRoom"] : List String).length :=
  ⟨by decide,
   (C4_patch_planner ["ChatRoom"] .pascal "TS" (by decide) (by decide)).2.2.2.1,
   (C4_patch_planner ["ChatRoom"] .pascal "TS" (by decide) (by decide)).1⟩

/-- C8: a cancellation at either prompt ends the run with exit status 1
before `patchConfig` is reached; conversely, an outcome that invokes
`patchConfig` can only arise from an explicit positive confirmation, with
the fully built delta and the configured path. The model returns at most
one `patched` outcome per run by construction. -/
theorem C8_cancellation_atomicity :
    ∀ (config : Config) (dt : TsType) (sc : PromptResult NamingStyle)
      (cc : PromptResult Bool) (ts : String),
      (extractCandidates dt ≠ none → findStyle (categories config) = none →
        runScript config dt .cancel cc ts = .exited 1)
      ∧ (extractCandidates dt ≠ none → runScript config dt sc .cancel ts = .exited 1)
      ∧ (∀ p patch, runScript config dt sc cc ts = .patched p patch →
          cc = .value true ∧ config.configPath = some p
          ∧ ∃ items style, extractCandidates dt = some items
              ∧ patch = buildPatch (items.filter (fun n =>
                  !((config.durable_objects_bindings.map (fun b => b.name)).contains n)))
                  style ts) := by
  intro config dt sc cc ts
  refine ⟨?_, ?_, ?_⟩
  · intro hne hfs
    rcases hext : extractCandidates dt with _ | items
    · exact absurd hext hne
    · simp [runScript, hext, hfs]
  · intro hne
    rcases hext : extractCandidates dt with _ | items
    · exact absurd hext hne
    · rcases hfs : findStyle (categories config) with _ | st
      · cases sc with
        | cancel => simp [runScript, hext, hfs]
        | value s => simp [runScript, hext, hfs]
      · simp [runScript, hext, hfs]
  · intro p patch hrun
    rcases hext : extractCandidates dt with _ | items
    · simp [runScript, hext] at hrun
    · rcases hfs : findStyle (categories config) with _ | st
      · cases sc with
        | cancel => simp [runScript, hext, hfs] at hrun
        | value s =>
          cases cc with
          | cancel => simp [runScript, hext, hfs] at hrun
          | value b =>
            cases b with
            | false => simp [runScript, hext, hfs] at hrun
            | true =>
              rcases hcp : config.configPath with _ | cp
              · simp [runScript, hext, hfs, hcp] at hrun
              · simp only [runScript, hext, hfs, hcp, Option.map_some'] at hrun
                obtain ⟨hp, hpatch⟩ := RunOutcome.patched.inj hrun
                subst hp
                exact ⟨rfl, rfl, items, s, rfl, hpatch.symm⟩
      · cases cc with
        | cancel => simp [runScript, hext, hfs] at hrun
        | value b =>
          cases b with
          | false => simp [runScript, hext, hfs] at hrun
          | true =>
            rcases hcp : config.configPath with _ | cp
            · simp [runScript, hext, hfs, hcp] at hrun
            · simp only [runScript, hext, hfs, hcp, Option.map_some'] at hrun
              obtain ⟨hp, hpatch⟩ := RunOutcome.patched.inj hrun
              subst hp
              exact ⟨rfl, rfl, items, st, rfl, hpatch.symm⟩

/-- C8 witness: confirming-prompt cancellation on a successful analysis run
exits with status 1. -/
theorem C8_witness :
    runScript sampleConfig (.atom (.stringLiteral "ChatRoom")) (.value .pascal) .cancel "TS"
      = .exited 1 :=
  (C8_cancellation_atomicity sampleConfig (.atom (.stringLiteral "ChatRoom"))
    (.value .pascal) .cancel "TS").2.1 (by decide)

/-- C10: an explicit "no" at the confirmation prompt (once the pipeline has
reached it) exits with status 0 and never invokes `patchConfig`, while a
cancellation at the same point exits with status 1. -/
theorem C10_decline_exits_zero :
    ∀ (config : Config) (dt : TsType) (sc : PromptResult NamingStyle) (ts : String),
      extractCandidates dt ≠ none →
      (findStyle (categories config) ≠ none ∨ sc ≠ .cancel) →
      runScript config dt sc (.value false) ts = .exited 0
      ∧ (∀ p patch, runScript config dt sc (.value false) ts ≠ .patched p patch)
      ∧ runScript config dt sc .cancel ts = .exited 1 := by
  intro config dt sc ts hne hstyle
  rcases hext : extractCandidates dt with _ | items
  · exact absurd hext hne
  have h0 : runScript config dt sc (.value false) ts = .exited 0 := by
    rcases hfs : findStyle (categories config) with _ | st
    · rcases hstyle with h | h
      · exact absurd hfs h
      · cases sc with
        | cancel => exact absurd rfl h
        | value s => simp [runScript, hext, hfs]
    · simp [runScript, hext, hfs]
  refine ⟨h0, fun p patch hc => by rw [h0] at hc; exact RunOutcome.noConfusion hc, ?_⟩
  rcases hfs : findStyle (categories config) with _ | st
  · cases sc with
    | cancel => simp [runScript, hext, hfs]
    | value s => simp [runScript, hext, hfs]
  · simp [runScript, hext, hfs]

/-- C10 witness: declining the confirmation on a successful analysis run
exits with status 0. -/
theorem C10_witness :
    runScript sampleConfig (.atom (.stringLiteral "ChatRoom")) (.value .pascal)
      (.value false) "TS" = .exited 0 :=
  (C10_decline_exits_zero sampleConfig (.atom (.stringLiteral "ChatRoom"))
    (.value .pascal) "TS" (by decide) (Or.inl (by decide))).1

/-- C1 counterexample: with discovered `["Counter"]` and existing
`["Counter"]` the net-new set is empty, yet the run does not terminate with
zero findings: the prompts are still reached and, on confirmation, the
mutation collaborator is invoked — with an empty binding list and an empty
migration class list. This refutes the claim that an empty net-new set
means `patchConfig` is never invoked and no prompt is shown. -/
theorem C1_counterexample :
    netNewOf ["Counter"] ["Counter"] = []
    ∧ runScript sampleConfig (.atom (.stringLiteral "Counter")) (.value .pascal)
        (.value true) "TS"
      = .patched "wrangler.jsonc" (buildPatch [] .upper_snake "TS") := by
  decide

/-- C1 (amended): when extraction succeeded but the net-new set is empty,
the run proceeds to the prompts rather than terminating: with a resolved
style and a config path, confirmation leads to a `patchConfig` call whose
delta has zero bindings and one migration with an empty class list, and
declining exits with status 0. Only a failed extraction aborts the run,
with a thrown error rather than a zero-finding report. -/
theorem C1_empty_net_new (config : Config) (dt : TsType) (sc : PromptResult NamingStyle)
    (ts : String) (items : List String) (st : NamingStyle) (p : String)
    (hext : extractCandidates dt = some items)
    (hfilt : items.filter (fun n =>
      !((config.durable_objects_bindings.map (fun b => b.name)).contains n)) = [])
    (hfs : findStyle (categories config) = some st)
    (hcp : config.configPath = some p) :
    runScript config dt sc (.value true) ts = .patched p (buildPatch [] st ts)
    ∧ runScript config dt sc (.value false) ts = .exited 0
    ∧ (buildPatch [] st ts).bindings = []
    ∧ ∀ m ∈ (buildPatch [] st ts).migrations, m.new_sqlite_classes = [] := by
  refine ⟨?_, ?_, by simp [buildPatch], by simp [buildPatch]⟩
  · simp only [runScript, hext, Option.map_some', hfilt, hfs, hcp]
  · simp [runScript, hext, hfs]

/-- C1 witness: the amended theorem applied at the concrete
empty-net-new run. -/
theorem C1_witness :
    runScript sampleConfig (.atom (.stringLiteral "Counter")) (.value .pascal)
      (.value false) "TS" = .exited 0 :=
  (C1_empty_net_new sampleConfig (.atom (.stringLiteral "Counter")) (.value .pascal) "TS"
    ["Counter"] .upper_snake "wrangler.jsonc" (by decide) (by decide) (by decide)
    (by decide)).2.1

/-- Helper for C3: stripping the quotes that `typeToString` puts around a
string-literal type recovers the literal's value (when the value itself
contains no double quote). -/
theorem stripQuotes_literal (v : String) (h : v.data.all (fun c => c ≠ '"') = true) :
    stripQuotes (typeToStringAtom (.stringLiteral v)) = v := by
  show String.mk (List.filter (fun c => c ≠ '"') ('"' :: v.data ++ ['"'])) = v
  have h' : ∀ c ∈ v.data, (fun c => (decide (c ≠ '"'))) c = true :=
    List.all_eq_true.mp h
  have h'' : ∀ c ∈ v.data, (fun c => !(decide (c = '"'))) c = true := by
    intro c hc
    simpa using h' c hc
  rw [List.filter_append, List.filter_cons]
  simp [List.filter_eq_self.mpr h'']

/-- C3 counterexample: when the default export's type is neither a union
nor a string literal, the resolver yields no candidate list at all (not an
empty one), and the run becomes a thrown fatal error instead of a
zero-candidate report. -/
theorem C3_counterexample :
    extractCandidates (.atom (.other "never")) = none
    ∧ extractCandidates (.atom (.other "never")) ≠ some []
    ∧ runScript sampleConfig (.atom (.other "never")) (.value .pascal) (.value true) "TS"
        = .fatalError "No Durable Objects found in your Worker" := by
  decide

/-- C3 (amended): a union maps each member to its literal string value and
a single string-literal type yields that one value, with the double-quote
artifacts of `typeToString` stripped; but in the remaining case extraction
yields nothing at all and the script fails fatally with a thrown error
("No Durable Objects found in your Worker") rather than reporting zero
candidates. -/
theorem C3_resolver_extraction :
    (∀ values : List String, values.all (fun v => v.data.all (fun c => c ≠ '"')) = true →
      extractCandidates (.union (values.map TsAtom.stringLiteral)) = some values)
    ∧ (∀ v : String, v.data.all (fun c => c ≠ '"') = true →
      extractCandidates (.atom (.stringLiteral v)) = some [v])
    ∧ (∀ d, extractCandidates (.atom (.other d)) = none)
    ∧ (∀ (config : Config) (dt : TsType) (sc : PromptResult NamingStyle)
        (cc : PromptResult Bool) (ts : String), extractCandidates dt = none →
        runScript config dt sc cc ts
          = .fatalError "No Durable Objects found in your Worker") := by
  refine ⟨?_, ?_, fun d => rfl, ?_⟩
  · intro values hall
    simp only [extractCandidates]
    congr 1
    induction values with
    | nil => rfl
    | cons v vs ih =>
      simp only [List.all_cons, Bool.and_eq_true] at hall
      simp only [List.map_cons]
      rw [stripQuotes_literal v hall.1, ih hall.2]
  · intro v h
    simp only [extractCandidates]
    rw [stripQuotes_literal v h]
  · intro config dt sc cc ts h
    simp [runScript, h]

/-- C3 witness: the union branch applied at a concrete two-member union. -/
theorem C3_witness :
    extractCandidates
        (.union ((["Counter", "ChatRoom"] : List String).map TsAtom.stringLiteral))
      = some ["Counter", "ChatRoom"] :=
  C3_resolver_extraction.1 ["Counter", "ChatRoom"] (by decide)

/-! ### Transcoder helper lemmas (towards C5) -/

theorem splitOnSpace_no_space : ∀ l : List Char, (∀ c ∈ l, c ≠ ' ') →
    splitOnSpace l = [l] := by
  intro l
  induction l with
  | nil => intro _; rfl
  | cons c rest ih =>
    intro h
    have hc : c ≠ ' ' := h c (by simp)
    simp only [splitOnSpace]
    rw [if_neg hc, ih (fun d hd => h d (List.mem_cons_of_mem _ hd))]

theorem splitOnSpace_append_space : ∀ xs : List Char, (∀ c ∈ xs, c ≠ ' ') →
    ∀ ys, splitOnSpace (xs ++ ' ' :: ys) = xs :: splitOnSpace ys := by
  intro xs
  induction xs with
  | nil =>
    intro _ ys
    simp [splitOnSpace]
  | cons c xs' ih =>
    intro h ys
    have hc : c ≠ ' ' := h c (by simp)
    rw [List.cons_append]
    simp only [splitOnSpace]
    rw [if_neg hc, ih (fun d hd => h d (List.mem_cons_of_mem _ hd)) ys]

theorem goodPart_no_space {p : List Char} (h : goodPart p = true) : ∀ c ∈ p, c ≠ ' ' := by
  cases p with
  | nil => simp [goodPart] at h
  | cons c cs =>
    simp only [goodPart, Bool.and_eq_true, List.all_eq_true] at h
    intro x hx
    rcases List.mem_cons.mp hx with rfl | hx
    · exact ne_space_of_upper h.1
    · exact ne_space_of_lowerDigit (h.2 x hx)

theorem goodPart_append_lowerDigit {p : List Char} {c : Char} (hp : goodPart p = true)
    (hc : isLowerDigit c = true) : goodPart (p ++ [c]) = true := by
  cases p with
  | nil => simp [goodPart] at hp
  | cons d ds =>
    rw [List.cons_append]
    simp only [goodPart, Bool.and_eq_true, List.all_eq_true] at hp ⊢
    refine ⟨hp.1, ?_⟩
    intro x hx
    rcases List.mem_append.mp hx with hx | hx
    · exact hp.2 x hx
    · rw [List.mem_singleton] at hx
      subst hx
      exact hc

theorem goodPart_chars_alnum {p : List Char} (h : goodPart p = true) :
    ∀ x ∈ p, isAlnumChar x = true := by
  cases p with
  | nil => simp [goodPart] at h
  | cons c cs =>
    simp only [goodPart, Bool.and_eq_true, List.all_eq_true] at h
    intro x hx
    rcases List.mem_cons.mp hx with rfl | hx
    · exact alnum_of_upper h.1
    · exact alnum_of_lowerDigit (h.2 x hx)

theorem jsReplaceUpper_cons (c : Char) (t : List Char) :
    jsReplaceUpper (c :: t)
      = (if isUpperAlpha c then [' ', c] else [c]) ++ jsReplaceUpper t := by
  simp [jsReplaceUpper]

theorem jsReplaceUpper_ne_nil {t : List Char} (h : t ≠ []) : jsReplaceUpper t ≠ [] := by
  cases t with
  | nil => cases h rfl
  | cons c t' =>
    rw [jsReplaceUpper_cons]
    by_cases hc : isUpperAlpha c = true
    · rw [if_pos hc]; simp
    · rw [if_neg hc]; simp

theorem getLast?_jsReplaceUpper : ∀ t : List Char, t ≠ [] →
    (jsReplaceUpper t).getLast? = t.getLast? := by
  intro t
  induction t with
  | nil => intro h; cases h rfl
  | cons c t' ih =>
    intro _
    cases t' with
    | nil =>
      by_cases hc : isUpperAlpha c = true
      · rw [jsReplaceUpper_cons, if_pos hc]; rfl
      · rw [jsReplaceUpper_cons, if_neg hc]; rfl
    | cons d t'' =>
      have hne : jsReplaceUpper (d :: t'') ≠ [] := jsReplaceUpper_ne_nil (by simp)
      rw [jsReplaceUpper_cons, List.getLast?_append_of_ne_nil _ hne, ih (by simp),
        List.getLast?_cons_cons]

/-- Trimming the expanded form of a PascalCase-shaped string removes exactly
the one leading space that the replacement inserted before the first
letter. -/
theorem jsTrim_pascal (u : Char) (t : List Char) (hu : isUpperAlpha u = true)
    (halnum : ∀ c ∈ t, isAlnumChar c = true) :
    jsTrim (jsReplaceUpper (u :: t)) = u :: jsReplaceUpper t := by
  rw [jsReplaceUpper_cons, if_pos hu,
    show ([' ', u] ++ jsReplaceUpper t : List Char) = ' ' :: u :: jsReplaceUpper t from rfl]
  have hws_u : ¬u.isWhitespace = true := by simp [not_ws_of_upper hu]
  unfold jsTrim
  rw [List.dropWhile_cons, if_pos (by decide : (' ' : Char).isWhitespace = true),
    List.dropWhile_cons, if_neg hws_u]
  rcases htE : jsReplaceUpper t with _ | ⟨e, E'⟩
  · simp [hws_u]
  · have htne : t ≠ [] := by
      intro h0
      rw [h0] at htE
      exact (List.cons_ne_nil e E') htE.symm
    have hlast : (e :: E').getLast? = t.getLast? := by
      rw [← htE]
      exact getLast?_jsReplaceUpper t htne
    rcases hg : t.getLast? with _ | a
    · exact absurd (List.getLast?_eq_none_iff.mp hg) htne
    have ha : a ∈ t := List.mem_of_mem_getLast? hg
    have hws_a : ¬a.isWhitespace = true := by simp [not_ws_of_alnum (halnum a ha)]
    have hrev : (u :: e :: E').reverse.head? = some a := by
      rw [List.head?_reverse, List.getLast?_cons_cons, hlast, hg]
    rcases hR : (u :: e :: E').reverse with _ | ⟨r, R'⟩
    · simp at hR
    · have hra : r = a := by
        rw [hR] at hrev
        exact Option.some.inj hrev.symm |>.symm
      subst hra
      rw [List.dropWhile_cons, if_neg hws_a, ← hR, List.reverse_reverse]

/-- Structure of the split: appending the expansion of an all-alphanumeric
suffix to a well-formed current word yields a nonempty list of well-formed
words. -/
theorem parts_good : ∀ (n : Nat) (t : List Char), t.length ≤ n →
    (∀ c ∈ t, isAlnumChar c = true) → ∀ pre : List Char, goodPart pre = true →
    splitOnSpace (pre ++ jsReplaceUpper t) ≠ []
    ∧ ∀ p ∈ splitOnSpace (pre ++ jsReplaceUpper t), goodPart p = true := by
  intro n
  induction n with
  | zero =>
    intro t ht _ pre hpre
    have ht0 : t = [] := List.length_eq_zero.mp (Nat.le_zero.mp ht)
    subst ht0
    rw [show jsReplaceUpper [] = [] from rfl, List.append_nil,
      splitOnSpace_no_space pre (goodPart_no_space hpre)]
    refine ⟨by simp, ?_⟩
    intro p hp
    rw [List.mem_singleton] at hp
    subst hp
    exact hpre
  | succ n ih =>
    intro t ht halnum pre hpre
    cases t with
    | nil =>
      rw [show jsReplaceUpper [] = [] from rfl, List.append_nil,
        splitOnSpace_no_space pre (goodPart_no_space hpre)]
      refine ⟨by simp, ?_⟩
      intro p hp
      rw [List.mem_singleton] at hp
      subst hp
      exact hpre
    | cons c t' =>
      have halnum' : ∀ x ∈ t', isAlnumChar x = true :=
        fun x hx => halnum x (List.mem_cons_of_mem _ hx)
      have hlen : t'.length ≤ n := by
        have := ht
        simp only [List.length_cons] at this
        omega
      by_cases hc : isUpperAlpha c = true
      · rw [jsReplaceUpper_cons, if_pos hc,
          show ([' ', c] ++ jsReplaceUpper t' : List Char)
            = ' ' :: (c :: jsReplaceUpper t') from rfl,
          splitOnSpace_append_space pre (goodPart_no_space hpre)]
        have hrec := ih t' hlen halnum' [c] (by simp [goodPart, hc])
        refine ⟨by simp, ?_⟩
        intro p hp
        rcases List.mem_cons.mp hp with rfl | hp
        · exact hpre
        · exact hrec.2 p hp
      · have hcl : isLowerDigit c = true :=
          lowerDigit_of_alnum_not_upper (halnum c (by simp)) (Bool.eq_false_iff.mpr hc)
        rw [jsReplaceUpper_cons, if_neg hc,
          show pre ++ ([c] ++ jsReplaceUpper t') = (pre ++ [c]) ++ jsReplaceUpper t'
            from (List.append_assoc _ _ _).symm]
        exact ih t' hlen halnum' (pre ++ [c]) (goodPart_append_lowerDigit hpre hcl)

/-- A PascalCase-shaped identifier splits into a nonempty list of words,
each one uppercase letter followed by lowercase letters and digits. -/
theorem toParts_pascal (s : String) (h : matchPascal s.data = true) :
    toParts s ≠ [] ∧ ∀ p ∈ toParts s, goodPart p = true := by
  unfold toParts
  rcases hsd : s.data with _ | ⟨u, t⟩
  · rw [hsd] at h; simp [matchPascal] at h
  · rw [hsd] at h
    simp only [matchPascal, Bool.and_eq_true, List.all_eq_true] at h
    rw [jsTrim_pascal u t h.1 h.2]
    exact parts_good t.length t (Nat.le_refl _) h.2 [u] (by simp [goodPart, h.1])

theorem snakeTail_cons_ne (cls : Char → Bool) {c : Char} (rest : List Char) (h : c ≠ '_') :
    snakeTail cls (c :: rest) = (cls c && snakeTail cls rest) := by
  rw [snakeTail.eq_def]
  dsimp only
  rw [if_neg h]

theorem snakeTail_underscore (cls : Char → Bool) (rest : List Char) :
    snakeTail cls ('_' :: rest) =
      (match rest with
       | [] => false
       | d :: rest2 => cls d && snakeTail cls rest2) := by
  rw [snakeTail.eq_def]
  dsimp only
  rw [if_pos rfl]

theorem snakeTail_of_all (cls : Char → Bool) (hus : cls '_' = false) :
    ∀ l, (∀ c ∈ l, cls c = true) → snakeTail cls l = true := by
  intro l
  induction l with
  | nil => intro _; rfl
  | cons c rest ih =>
    intro h
    have hc : cls c = true := h c (by simp)
    have hne : c ≠ '_' := fun he => by rw [he, hus] at hc; cases hc
    rw [snakeTail_cons_ne cls rest hne]
    simp [hc, ih (fun d hd => h d (List.mem_cons_of_mem _ hd))]

theorem snakeTail_append_all (cls : Char → Bool) (hus : cls '_' = false) :
    ∀ l₁, (∀ c ∈ l₁, cls c = true) → ∀ l₂,
      snakeTail cls (l₁ ++ l₂) = snakeTail cls l₂ := by
  intro l₁
  induction l₁ with
  | nil => intro _ l₂; rfl
  | cons c rest ih =>
    intro h l₂
    have hc : cls c = true := h c (by simp)
    have hne : c ≠ '_' := fun he => by rw [he, hus] at hc; cases hc
    rw [List.cons_append, snakeTail_cons_ne cls (rest ++ l₂) hne, hc,
      ih (fun d hd => h d (List.mem_cons_of_mem _ hd)) l₂]
    simp

theorem matchSnakeWith_join (headCls cls : Char → Bool) (hus : cls '_' = false)
    (hhead : ∀ c, headCls c = true → cls c = true) :
    ∀ ps : List (List Char), ps ≠ [] →
      (∀ p ∈ ps, ∃ c cs, p = c :: cs ∧ headCls c = true ∧ ∀ x ∈ cs, cls x = true) →
      matchSnakeWith headCls cls (joinWithUnderscore ps) = true := by
  intro ps
  induction ps with
  | nil => intro h; cases h rfl
  | cons p ps' ih =>
    intro _ hall
    obtain ⟨c, cs, hp, hc, hcs⟩ := hall p (by simp)
    subst hp
    cases ps' with
    | nil =>
      rw [show joinWithUnderscore [c :: cs] = c :: cs from rfl]
      simp only [matchSnakeWith, Bool.and_eq_true]
      exact ⟨hc, snakeTail_of_all cls hus cs hcs⟩
    | cons q ps'' =>
      rw [show joinWithUnderscore ((c :: cs) :: q :: ps'')
          = (c :: cs) ++ '_' :: joinWithUnderscore (q :: ps'') from rfl]
      have hrest := ih (by simp) (fun r hr => hall r (List.mem_cons_of_mem _ hr))
      rcases hjq : joinWithUnderscore (q :: ps'') with _ | ⟨d, rest⟩
      · rw [hjq] at hrest; simp [matchSnakeWith] at hrest
      · rw [hjq] at hrest
        simp only [matchSnakeWith, Bool.and_eq_true] at hrest
        rw [List.cons_append]
        simp only [matchSnakeWith, Bool.and_eq_true]
        refine ⟨hc, ?_⟩
        rw [snakeTail_append_all cls hus cs hcs, snakeTail_underscore]
        dsimp only
        simp [hhead d hrest.1, hrest.2]

theorem matchUpperSnake_eq_snakeWith (s : List Char) :
    matchUpperSnake s = matchSnakeWith isUpperAlpha isUpperDigit s := by
  cases s <;> rfl

theorem matchLowerSnake_eq_snakeWith (s : List Char) :
    matchLowerSnake s = matchSnakeWith isLowerAlpha isLowerDigit s := by
  cases s <;> rfl

theorem upper_parts_shape {ps : List (List Char)}
    (hall : ∀ p ∈ ps, goodPart p = true) :
    ∀ p' ∈ ps.map (List.map toUpperChar), ∃ c cs, p' = c :: cs
      ∧ isUpperAlpha c = true ∧ ∀ x ∈ cs, isUpperDigit x = true := by
  intro p' hp'
  obtain ⟨p, hp, rfl⟩ := List.mem_map.mp hp'
  have hg := hall p hp
  cases p with
  | nil => simp [goodPart] at hg
  | cons c cs =>
    simp only [goodPart, Bool.and_eq_true, List.all_eq_true] at hg
    refine ⟨toUpperChar c, cs.map toUpperChar, by simp, toUpperChar_upper hg.1, ?_⟩
    intro x hx
    obtain ⟨y, hy, rfl⟩ := List.mem_map.mp hx
    exact toUpperChar_upperDigit (hg.2 y hy)

theorem lower_parts_shape {ps : List (List Char)}
    (hall : ∀ p ∈ ps, goodPart p = true) :
    ∀ p' ∈ ps.map (List.map toLowerChar), ∃ c cs, p' = c :: cs
      ∧ isLowerAlpha c = true ∧ ∀ x ∈ cs, isLowerDigit x = true := by
  intro p' hp'
  obtain ⟨p, hp, rfl⟩ := List.mem_map.mp hp'
  have hg := hall p hp
  cases p with
  | nil => simp [goodPart] at hg
  | cons c cs =>
    simp only [goodPart, Bool.and_eq_true, List.all_eq_true] at hg
    refine ⟨toLowerChar c, cs.map toLowerChar, by simp, toLowerChar_lower hg.1, ?_⟩
    intro x hx
    obtain ⟨y, hy, rfl⟩ := List.mem_map.mp hx
    exact toLowerChar_lowerDigit (hg.2 y hy)

theorem upper_snake_output {ps : List (List Char)} (hne : ps ≠ [])
    (hall : ∀ p ∈ ps, goodPart p = true) :
    matchUpperSnake (joinWithUnderscore (ps.map (List.map toUpperChar))) = true := by
  rw [matchUpperSnake_eq_snakeWith]
  exact matchSnakeWith_join isUpperAlpha isUpperDigit (by decide)
    (fun c h => by simp [isUpperDigit, h]) _
    (fun h => hne (List.map_eq_nil_iff.mp h)) (upper_parts_shape hall)

theorem lower_snake_output {ps : List (List Char)} (hne : ps ≠ [])
    (hall : ∀ p ∈ ps, goodPart p = true) :
    matchLowerSnake (joinWithUnderscore (ps.map (List.map toLowerChar))) = true := by
  rw [matchLowerSnake_eq_snakeWith]
  exact matchSnakeWith_join isLowerAlpha isLowerDigit (by decide)
    (fun c h => by simp [isLowerDigit, h]) _
    (fun h => hne (List.map_eq_nil_iff.mp h)) (lower_parts_shape hall)

theorem camel_output {ps : List (List Char)} (hne : ps ≠ [])
    (hall : ∀ p ∈ ps, goodPart p = true) :
    matchCamel ((ps.headD []).map toLowerChar ++ (ps.drop 1).flatten) = true := by
  cases ps with
  | nil => cases hne rfl
  | cons p rest =>
    have hp := hall p (by simp)
    cases p with
    | nil => simp [goodPart] at hp
    | cons c cs =>
      simp only [goodPart, Bool.and_eq_true, List.all_eq_true] at hp
      show matchCamel (List.map toLowerChar (c :: cs) ++ rest.flatten) = true
      rw [List.map_cons, List.cons_append]
      simp only [matchCamel, Bool.and_eq_true, List.all_eq_true]
      refine ⟨toLowerChar_lower hp.1, ?_⟩
      intro x hx
      rcases List.mem_append.mp hx with hx | hx
      · obtain ⟨y, hy, rfl⟩ := List.mem_map.mp hx
        exact alnum_of_lowerDigit (toLowerChar_lowerDigit (hp.2 y hy))
      · obtain ⟨s, hs, hxs⟩ := List.mem_flatten.mp hx
        exact goodPart_chars_alnum (hall s (List.mem_cons_of_mem _ hs)) x hxs

theorem word_of_upperDigit {c : Char} (h : isUpperDigit c = true) : isWordChar c = true := by
  simp only [isUpperDigit, Bool.or_eq_true] at h
  rcases h with h | h
  · exact word_of_alnum (alnum_of_upper h)
  · exact word_of_alnum (by simp [isAlnumChar, h])

theorem word_of_lowerDigit {c : Char} (h : isLowerDigit c = true) : isWordChar c = true :=
  word_of_alnum (alnum_of_lowerDigit h)

theorem snakeTail_word (cls : Char → Bool) (hcw : ∀ c, cls c = true → isWordChar c = true) :
    ∀ (n : Nat) (l : List Char), l.length ≤ n → snakeTail cls l = true →
      ∀ x ∈ l, isWordChar x = true := by
  intro n
  induction n with
  | zero =>
    intro l hl _ x hx
    have h0 : l = [] := List.length_eq_zero.mp (Nat.le_zero.mp hl)
    subst h0
    simp at hx
  | succ n ih =>
    intro l hl hs x hx
    cases l with
    | nil => simp at hx
    | cons c rest =>
      by_cases hc : c = '_'
      · subst hc
        cases rest with
        | nil => simp [snakeTail] at hs
        | cons d rest2 =>
          have hs' : cls d = true ∧ snakeTail cls rest2 = true := by
            rw [snakeTail_underscore] at hs
            simpa using hs
          have hlen : rest2.length ≤ n := by
            simp only [List.length_cons] at hl
            omega
          rcases List.mem_cons.mp hx with rfl | hx
          · decide
          · rcases List.mem_cons.mp hx with rfl | hx
            · exact hcw x hs'.1
            · exact ih rest2 hlen hs'.2 x hx
      · have hs' : cls c = true ∧ snakeTail cls rest = true := by
          rw [snakeTail_cons_ne cls rest hc] at hs
          simpa using hs
        have hlen : rest.length ≤ n := by
          simp only [List.length_cons] at hl
          omega
        rcases List.mem_cons.mp hx with rfl | hx
        · exact hcw x hs'.1
        · exact ih rest hlen hs'.2 x hx

theorem matchesStyle_word : ∀ (st : NamingStyle) (l : List Char),
    matchesStyle st l = true → l.all isWordChar = true := by
  intro st l h
  rw [List.all_eq_true]
  intro x hx
  cases st with
  | camel =>
    cases l with
    | nil => simp [matchesStyle, matchCamel] at h
    | cons c cs =>
      simp only [matchesStyle, matchCamel, Bool.and_eq_true, List.all_eq_true] at h
      rcases List.mem_cons.mp hx with rfl | hx
      · exact word_of_alnum (by simp [isAlnumChar, h.1])
      · exact word_of_alnum (h.2 x hx)
  | pascal =>
    cases l with
    | nil => simp [matchesStyle, matchPascal] at h
    | cons c cs =>
      simp only [matchesStyle, matchPascal, Bool.and_eq_true, List.all_eq_true] at h
      rcases List.mem_cons.mp hx with rfl | hx
      · exact word_of_alnum (alnum_of_upper h.1)
      · exact word_of_alnum (h.2 x hx)
  | upper_snake =>
    cases l with
    | nil => simp [matchesStyle, matchUpperSnake] at h
    | cons c cs =>
      simp only [matchesStyle, matchUpperSnake, Bool.and_eq_true] at h
      rcases List.mem_cons.mp hx with rfl | hx
      · exact word_of_alnum (alnum_of_upper h.1)
      · exact snakeTail_word isUpperDigit (fun d hd => word_of_upperDigit hd)
          cs.length cs (Nat.le_refl _) h.2 x hx
  | lower_snake =>
    cases l with
    | nil => simp [matchesStyle, matchLowerSnake] at h
    | cons c cs =>
      simp only [matchesStyle, matchLowerSnake, Bool.and_eq_true] at h
      rcases List.mem_cons.mp hx with rfl | hx
      · exact word_of_alnum (alnum_of_lowerDigit (by simp [isLowerDigit, h.1]))
      · exact snakeTail_word isLowerDigit (fun d hd => word_of_lowerDigit hd)
          cs.length cs (Nat.le_refl _) h.2 x hx

/-- C5: the Name Transcoder is style-total: for every target style and every
well-formed PascalCase identifier, the transcoded output contains only
letters, digits and underscores, and matches the target style's own
recognition pattern from §4.4. -/
theorem C5_transcoder_total :
    ∀ (style : NamingStyle) (s : String), matchPascal s.data = true →
      (styleNames s style).data.all isWordChar = true
      ∧ matchesStyle style (styleNames s style).data = true := by
  intro style s h
  have hmain : matchesStyle style (styleNames s style).data = true := by
    cases style with
    | pascal => exact h
    | camel =>
      obtain ⟨hne, hall⟩ := toParts_pascal s h
      exact camel_output hne hall
    | upper_snake =>
      obtain ⟨hne, hall⟩ := toParts_pascal s h
      exact upper_snake_output hne hall
    | lower_snake =>
      obtain ⟨hne, hall⟩ := toParts_pascal s h
      exact lower_snake_output hne hall
  exact ⟨matchesStyle_word style _ hmain, hmain⟩

/-- C5 witness: the theorem applied to `FooBar` with target style
UPPER_SNAKE_CASE. -/
theorem C5_witness :
    matchPascal "FooBar".data = true
    ∧ matchesStyle NamingStyle.upper_snake
        (styleNames "FooBar" NamingStyle.upper_snake).data = true :=
  ⟨by decide, (C5_transcoder_total .upper_snake "FooBar" (by decide)).2⟩

end DeclareObjects
